import Mathlib

/-
Verification of the qinhuai storage engine core against its specification.

The development shallowly embeds three layers of the source:
- the prefix-varint codec (src/encoding/prefix_varint.rs),
- the in-memory VFS (src/storage/vfs.rs),
- the Prolly-tree unicity construction (src/storage/prolly.rs; the tree body
  is a stub in the source, so it is modelled from the spec).

Machine integers are represented as Nat with explicit reductions mod 2 ^ 64
where u64 overflow can occur; byte slices are lists of Nat; fallible
operations return Option.
-/

set_option maxHeartbeats 1000000

namespace PrefixVarint

/-- Fuel-indexed binary digit counter: for n < 2 ^ fuel it computes the number
of binary digits of n (0 for n = 0). -/
def bitlenAux : Nat → Nat → Nat
| 0, _ => 0
| fuel + 1, n => if n = 0 then 0 else bitlenAux fuel (n / 2) + 1

/-- Number of binary digits of a value below 2 ^ 64. -/
def bitlen (n : Nat) : Nat := bitlenAux 64 n

/-- Models u64 leading_zeros for arguments in [1, 2 ^ 64), as used by encode
on x | 1. -/
def leadingZeros64 (n : Nat) : Nat := 64 - bitlen n

/-- Fuel-indexed trailing-zero counter. -/
def ctzAux : Nat → Nat → Nat
| 0, _ => 0
| fuel + 1, n => if n % 2 = 1 then 0 else ctzAux fuel (n / 2) + 1

/-- Models u32 trailing_zeros (on input 0 it returns 32, as in Rust). -/
def trailingZeros32 (n : Nat) : Nat := ctzAux 32 n

/-- Little-endian numeric value of a byte list. -/
def leVal (l : List Nat) : Nat := l.foldr (fun b acc => b + 256 * acc) 0

/-- Embeds unaligned_load_u64: loads the first at most 8 bytes of p
little-endian; missing bytes read as zero. -/
def unaligned_load_u64 (p : List Nat) : Nat := leVal (p.take 8)

/-- Embeds length: the frame length determined by the initial byte,
1 + trailing_zeros(initial | 0x100). -/
def length (initial : Nat) : Nat := 1 + trailingZeros32 (initial ||| 0x100)

/-- Embeds decode. The Rust code panics (first().unwrap()) exactly on the
empty slice, modelled by none; all remaining operations are total since the
shift amounts stay below 64. -/
def decode (p : List Nat) : Option Nat :=
match p with
| [] => none
| b :: _ =>
  let len := length b
  if len < 9 then
    let unused := 64 - 8 * len
    some (unaligned_load_u64 p * 2 ^ unused % 2 ^ 64 / 2 ^ (unused + len))
  else
    some (unaligned_load_u64 (p.drop 1))

/-- Models the byte-push loop of encode: the n low little-endian bytes of x. -/
def pushLEBytes (x : Nat) : Nat → List Nat
| 0 => []
| n + 1 => x % 256 :: pushLEBytes (x / 256) n

/-- Embeds encode: appends the 1-to-9-byte frame for x to output. In the
short branch the marker is OR-ed in after an u64 wrapping shift, and the
final loop emits the bytes little-endian. -/
def encode (x : Nat) (output : List Nat) : List Nat :=
let bits := 64 - leadingZeros64 (x ||| 1)
let bytes := 1 + (bits - 1) / 7
if bits > 56 then
  (output ++ [0]) ++ pushLEBytes x 8
else
  output ++ pushLEBytes (x * 2 ^ bytes % 2 ^ 64 ||| 2 ^ (bytes - 1)) bytes

end PrefixVarint

/-- Length-rule formula written from the words of the spec (section 4.1):
bits = max(1, ceil(log2(x+1))); len = ceil(bits/7) when bits <= 56, else 9.
This is the comparison definition for the refinement claim about encode's
output length; ceil(log2(x+1)) is Nat.clog 2 (x+1) and ceil(bits/7) is
(bits+6)/7. -/
def specLen (x : Nat) : Nat :=
  let bits := max 1 (Nat.clog 2 (x + 1))
  if bits ≤ 56 then (bits + 6) / 7 else 9

namespace Vfs

/-- Embeds MemoryFileData (src/storage/vfs.rs): each in-memory file is a byte
vector plus a lock flag, held in a per-path shared cell. -/
structure MemoryFileData where
  data : List Nat
  locked : Bool
deriving DecidableEq

/-- Embeds the derived Default for MemoryFileData: empty and unlocked. -/
def MemoryFileData.default : MemoryFileData := { data := [], locked := false }

/-- Embeds Vec::resize as used by truncate and write: keep the first n bytes,
pad with the fill byte when growing. -/
def vecResize (l : List Nat) (n : Nat) (fill : Nat) : List Nat :=
  if n ≤ l.length then l.take n else l ++ List.replicate (n - l.length) fill

/-- Embeds MemoryFile::size. -/
def MemoryFileData.size (f : MemoryFileData) : Nat := f.data.length

/-- Embeds MemoryFile::truncate: data.resize(size, 0xCC). -/
def MemoryFileData.truncate (f : MemoryFileData) (size : Nat) : MemoryFileData :=
  { f with data := vecResize f.data size 0xCC }

/-- Embeds MemoryFile::read: fails iff offset + buf.len exceeds the current
size, otherwise the buffer receives the bytes at [offset, offset + len). -/
def MemoryFileData.read (f : MemoryFileData) (offset len : Nat) :
    Option (List Nat) :=
  if offset + len > f.data.length then none
  else some ((f.data.drop offset).take len)

/-- Embeds MemoryFile::write: resize with fill 0xCC when the range reaches
past the end, then overwrite [offset, offset + buf.len) with buf. -/
def MemoryFileData.write (f : MemoryFileData) (offset : Nat) (buf : List Nat) :
    MemoryFileData :=
  let d := if offset + buf.length > f.data.length
    then vecResize f.data (offset + buf.length) 0xCC else f.data
  { f with data := d.take offset ++ buf ++ d.drop (offset + buf.length) }

/-- Embeds MemoryFile::try_lock: fails if the shared flag is already set. -/
def MemoryFileData.try_lock (f : MemoryFileData) : Option MemoryFileData :=
  if f.locked then none else some { f with locked := true }

/-- Embeds MemoryFile::lock, whose body is identical to try_lock in the
source (the in-memory backend fails immediately instead of blocking). -/
def MemoryFileData.lock (f : MemoryFileData) : Option MemoryFileData :=
  if f.locked then none else some { f with locked := true }

/-- Embeds MemoryFile::unlock: fails if not currently locked. -/
def MemoryFileData.unlock (f : MemoryFileData) : Option MemoryFileData :=
  if f.locked then some { f with locked := false } else none

/-- Embeds MemoryFileSystem: a map from paths to per-path file cells. A
MemoryFile handle is an Rc clone of the cell for its path, so a handle is
identified by the path of the cell it aliases. -/
abbrev MemoryFileSystem := String → Option MemoryFileData

/-- Embeds MemoryFileSystem::open: files.entry(path).or_default() inserts an
empty unlocked file when absent, and the returned handle aliases the
per-path cell. -/
def msOpen (fs : MemoryFileSystem) (path : String) : MemoryFileSystem × String :=
  (fun p => if p = path then some ((fs path).getD MemoryFileData.default) else fs p,
    path)

/-- Runs a fallible MemoryFile operation through a handle: the operation acts
on the shared cell the handle aliases and the updated cell is stored back. -/
def hApply (fs : MemoryFileSystem) (h : String)
    (op : MemoryFileData → Option MemoryFileData) : Option MemoryFileSystem :=
  (fs h).bind fun d =>
    (op d).map fun d2 => fun p => if p = h then some d2 else fs p

/-- lock invoked through a handle. -/
def hLock (fs : MemoryFileSystem) (h : String) : Option MemoryFileSystem :=
  hApply fs h MemoryFileData.lock

/-- try_lock invoked through a handle. -/
def hTryLock (fs : MemoryFileSystem) (h : String) : Option MemoryFileSystem :=
  hApply fs h MemoryFileData.try_lock

/-- unlock invoked through a handle. -/
def hUnlock (fs : MemoryFileSystem) (h : String) : Option MemoryFileSystem :=
  hApply fs h MemoryFileData.unlock

end Vfs

/-- The bytes of "hello". -/
def helloBytes : List Nat := [104, 101, 108, 108, 111]

/-- The bytes of "world". -/
def worldBytes : List Nat := [119, 111, 114, 108, 100]

/-- The bytes of "hellworld". -/
def hellworldBytes : List Nat := [104, 101, 108, 108, 119, 111, 114, 108, 100]

/-- The path used by the lock witnesses. -/
def pathF : String := "f"

/-- The empty file system used by the lock witnesses. -/
def exampleFS0 : Vfs.MemoryFileSystem := fun _ => none

/-- The file system after a first open of path f. -/
def exampleFS1 : Vfs.MemoryFileSystem := (Vfs.msOpen exampleFS0 pathF).1

/-- The file system after a second open of path f. -/
def exampleFS2 : Vfs.MemoryFileSystem := (Vfs.msOpen exampleFS1 pathF).1

/-- The file system after locking f through the first handle. -/
def fsAfterLock : Vfs.MemoryFileSystem :=
  (Vfs.hLock exampleFS2 pathF).getD exampleFS0

namespace Prolly

/-- Keys and values are opaque byte strings ordered lexicographically. -/
abbrev Key := List Nat

/-- Embeds the Policy trait (src/storage/prolly.rs): the boundary decision
function and the content hash function of a Prolly tree. -/
structure Policy where
  boundary_decision : Nat → Key → Nat → Bool
  content_hash : List Nat → List Nat

/-- Lexicographic strict order on keys (unsigned byte comparison). -/
def keyLt : Key → Key → Bool
| _, [] => false
| [], _ :: _ => true
| a :: as, b :: bs =>
  if a < b then true else if a = b then keyLt as bs else false

/-- Modelled from the spec: BasicTree (the Tree implementation) is a stub in
src/storage/prolly.rs, so insert is modelled as ordered-map insertion on the
sorted entry list (splice in or overwrite, keys strictly increasing), per
spec section 4.4.2. -/
def insertKV : List (Key × List Nat) → Key → List Nat → List (Key × List Nat)
| [], k, v => [(k, v)]
| (k2, v2) :: rest, k, v =>
  if keyLt k k2 then (k, v) :: (k2, v2) :: rest
  else if k = k2 then (k, v) :: rest
  else (k2, v2) :: insertKV rest k v

/-- A sequence of inserts applied to the initially empty map. -/
def applyInserts (ops : List (Key × List Nat)) : List (Key × List Nat) :=
  ops.foldl (fun l op => insertKV l op.1 op.2) []

/-- Modelled from the spec: group one layer of (key, payload) items into
nodes, closing the current node exactly after the entry whose
boundary_decision at the current size returns true (the layer-by-layer
construction in the BasicTree doc comment and spec invariant 3). The first
argument is the reversed current node. -/
def splitBoundaries (pol : Policy) (height : Nat) :
    List (Key × List Nat) → List (Key × List Nat) → List (List (Key × List Nat))
| cur, [] => if cur.isEmpty then [] else [cur.reverse]
| cur, e :: rest =>
  if pol.boundary_decision height e.1 (cur.length + 1) then
    (e :: cur).reverse :: splitBoundaries pol height [] rest
  else
    splitBoundaries pol height (e :: cur) rest

/-- Serialized form of a node in the file-format style (spec section 6):
length-prefixed key and payload per entry, lengths in the prefix-varint
codec. -/
def serializeEntries (entries : List (Key × List Nat)) : List Nat :=
  entries.foldr
    (fun e acc =>
      PrefixVarint.encode e.1.length [] ++ e.1 ++
        PrefixVarint.encode e.2.length [] ++ e.2 ++ acc) []

/-- Modelled from the spec: a finished node is summarized by its first key
and the content hash of its serialized entries (spec invariants 2 and 4). -/
def nodeSummary (pol : Policy) (node : List (Key × List Nat)) : Key × List Nat :=
  (match node with
   | [] => []
   | e :: _ => e.1,
   pol.content_hash (serializeEntries node))

/-- Modelled from the spec: build internal layers bottom-up until a single
node remains and return the root content hash. The fuel argument bounds the
number of layers (one per entry suffices); it only pads the recursion and
never changes the result for a fixed input. -/
def buildLayers (pol : Policy) : Nat → Nat → List (Key × List Nat) → List Nat
| _, _, [] => pol.content_hash []
| _, _, [single] => single.2
| 0, _, _ :: _ :: _ => pol.content_hash []
| fuel + 1, height, nodes =>
  buildLayers pol fuel (height + 1)
    ((splitBoundaries pol height [] nodes).map (nodeSummary pol))

/-- Modelled from the spec: the root content hash of the Prolly tree built
layer-by-layer from the sorted entry list; a tree with no entries has the
distinguished empty hash. -/
def rootHash (pol : Policy) (entries : List (Key × List Nat)) : List Nat :=
  match entries with
  | [] => pol.content_hash []
  | _ :: _ =>
    buildLayers pol entries.length 1
      ((splitBoundaries pol 0 [] entries).map (nodeSummary pol))

/-- Entry lists sorted strictly by key. -/
abbrev SortedKeys (l : List (Key × List Nat)) : Prop :=
  List.Pairwise (fun e1 e2 => keyLt e1.1 e2.1 = true) l

/-- A concrete policy for the unicity witness. -/
def examplePolicy : Policy :=
  { boundary_decision := fun _ _ size => decide (2 ≤ size),
    content_hash := fun content => content }

/-- Two insert sequences with the same final key-value set, for the unicity
witness. -/
def exampleOps1 : List (Key × List Nat) := [([0], [1]), ([1], [2])]

/-- The reversed insert order of exampleOps1. -/
def exampleOps2 : List (Key × List Nat) := [([1], [2]), ([0], [1])]

end Prolly

section CodecSanity

open PrefixVarint

example : encode 0 [] = [0x01] := by decide
example : encode 1 [] = [0x03] := by decide
example : encode 127 [] = [0xFF] := by decide
example : encode 128 [] = [0x02, 0x02] := by decide
example : encode 255 [] = [0xFE, 0x03] := by decide
example : encode 8192 [] = [0x02, 0x80] := by decide
example : encode 16383 [] = [0xFE, 0xFF] := by decide
example : encode 16384 [] = [0x04, 0x00, 0x02] := by decide
example : encode (2 ^ 64 - 1) [] =
    [0x00, 0xFF, 0xFF, 0xFF, 0xFF, 0xFF, 0xFF, 0xFF, 0xFF] := by decide
example : decode [0x04, 0x00, 0x02] = some 16384 := by decide
example : decode [0x00, 0xFF, 0xFF, 0xFF, 0xFF, 0xFF, 0xFF, 0xFF, 0xFF] =
    some (2 ^ 64 - 1) := by decide
example : decode [0xFE, 0x03, 0xAB] = some 255 := by decide

end CodecSanity

namespace PrefixVarint

theorem bitlenAux_le_fuel (fuel n : Nat) : bitlenAux fuel n ≤ fuel := by
  induction fuel generalizing n with
  | zero => simp [bitlenAux]
  | succ fuel ih =>
    simp only [bitlenAux]
    split
    · exact Nat.zero_le _
    · exact Nat.succ_le_succ (ih (n / 2))

theorem bitlenAux_zero (fuel : Nat) : bitlenAux fuel 0 = 0 := by
  cases fuel <;> simp [bitlenAux]

theorem lt_two_pow_bitlenAux (fuel n : Nat) (h : n < 2 ^ fuel) :
    n < 2 ^ bitlenAux fuel n := by
  induction fuel generalizing n with
  | zero => simpa [bitlenAux] using h
  | succ fuel ih =>
    simp only [bitlenAux]
    split
    · omega
    · have h2 : n / 2 < 2 ^ fuel := by
        have : 2 ^ (fuel + 1) = 2 * 2 ^ fuel := by ring
        omega
      have := ih (n / 2) h2
      have hp : 2 ^ (bitlenAux fuel (n / 2) + 1) = 2 * 2 ^ bitlenAux fuel (n / 2) := by
        ring
      omega

theorem two_pow_pred_bitlenAux_le (fuel n : Nat) (h1 : 1 ≤ n) :
    2 ^ (bitlenAux fuel n - 1) ≤ n := by
  induction fuel generalizing n with
  | zero => simpa [bitlenAux]
  | succ fuel ih =>
    simp only [bitlenAux]
    split
    · omega
    · simp only [Nat.add_sub_cancel]
      rcases Nat.eq_zero_or_pos (n / 2) with hz | hp
      · rw [hz, bitlenAux_zero]
        omega
      · have hih := ih (n / 2) hp
        rcases Nat.eq_zero_or_pos (bitlenAux fuel (n / 2)) with hb | hb
        · rw [hb]
          omega
        · obtain ⟨b, hb2⟩ : ∃ b, bitlenAux fuel (n / 2) = b + 1 :=
            ⟨bitlenAux fuel (n / 2) - 1, by omega⟩
          rw [hb2] at hih ⊢
          simp only [Nat.add_sub_cancel] at hih
          have hpow : 2 ^ (b + 1) = 2 * 2 ^ b := by ring
          omega

theorem bitlen_le_64 (n : Nat) : bitlen n ≤ 64 := bitlenAux_le_fuel 64 n

theorem lt_two_pow_bitlen {n : Nat} (h : n < 2 ^ 64) : n < 2 ^ bitlen n :=
  lt_two_pow_bitlenAux 64 n h

theorem two_pow_pred_bitlen_le {n : Nat} (h : 1 ≤ n) : 2 ^ (bitlen n - 1) ≤ n :=
  two_pow_pred_bitlenAux_le 64 n h

theorem bitlen_pos {n : Nat} (h1 : 1 ≤ n) (h2 : n < 2 ^ 64) : 1 ≤ bitlen n := by
  have h := lt_two_pow_bitlen h2
  rcases Nat.eq_zero_or_pos (bitlen n) with hz | hp
  · rw [hz] at h
    simp at h
    omega
  · exact hp

theorem bitlen_eq {n k : Nat} (hk : 1 ≤ k) (hk64 : k ≤ 64) (h1 : 2 ^ (k - 1) ≤ n)
    (h2 : n < 2 ^ k) : bitlen n = k := by
  have hn64 : n < 2 ^ 64 := lt_of_lt_of_le h2 (Nat.pow_le_pow_right (by norm_num) hk64)
  have hn1 : 1 ≤ n := le_trans (Nat.one_le_two_pow) h1
  have hu := lt_two_pow_bitlen hn64
  have hl := two_pow_pred_bitlen_le hn1
  have hbp := bitlen_pos hn1 hn64
  have c1 : 2 ^ (bitlen n - 1) < 2 ^ k := lt_of_le_of_lt hl h2
  have c2 : 2 ^ (k - 1) < 2 ^ bitlen n := lt_of_le_of_lt h1 hu
  rw [Nat.pow_lt_pow_iff_right (by norm_num : 1 < 2)] at c1 c2
  omega

theorem bits_eq_bitlen (n : Nat) : 64 - leadingZeros64 n = bitlen n := by
  have := bitlen_le_64 n
  unfold leadingZeros64
  omega

theorem ctzAux_pow_mul (fuel k m : Nat) (h : k < fuel) :
    ctzAux fuel (2 ^ k * (2 * m + 1)) = k := by
  induction fuel generalizing k with
  | zero => omega
  | succ fuel ih =>
    cases k with
    | zero =>
      simp only [ctzAux, pow_zero, one_mul]
      rw [if_pos (by omega)]
    | succ k =>
      have heven : 2 ^ (k + 1) * (2 * m + 1) % 2 = 0 := by
        have : 2 ^ (k + 1) * (2 * m + 1) = 2 * (2 ^ k * (2 * m + 1)) := by ring
        omega
      have hdiv : 2 ^ (k + 1) * (2 * m + 1) / 2 = 2 ^ k * (2 * m + 1) := by
        have : 2 ^ (k + 1) * (2 * m + 1) = 2 * (2 ^ k * (2 * m + 1)) := by ring
        omega
      simp only [ctzAux, heven]
      rw [if_neg (by omega), hdiv, ih k (by omega)]

theorem lor_eq_add {n a b : Nat} (ha : 2 ^ n ∣ a) (hb : b < 2 ^ n) :
    a ||| b = a + b := by
  obtain ⟨c, hc⟩ := ha
  subst hc
  apply Nat.eq_of_testBit_eq
  intro j
  rw [Nat.testBit_lor, Nat.testBit_mul_pow_two_add c hb j]
  have hzero : (2 ^ n * c).testBit j = if j < n then false else c.testBit (j - n) := by
    have := Nat.testBit_mul_pow_two_add c (show 0 < 2 ^ n from Nat.pos_pow_of_pos n (by norm_num)) j
    simpa using this
  rw [hzero]
  by_cases hj : j < n
  · simp [hj]
  · have hbj : b.testBit j = false := by
      apply Nat.testBit_lt_two_pow
      exact lt_of_lt_of_le hb (Nat.pow_le_pow_right (by norm_num) (by omega))
    simp [hj, hbj]

theorem or_one_eq (x : Nat) : x ||| 1 = 2 * (x / 2) + 1 := by
  apply Nat.eq_of_testBit_eq
  intro j
  rw [Nat.testBit_lor]
  have h1 : (2 * (x / 2) + 1).testBit j = if j < 1 then (1 : Nat).testBit j else (x / 2).testBit (j - 1) := by
    have := Nat.testBit_mul_pow_two_add (x / 2) (show (1 : Nat) < 2 ^ 1 by norm_num) j
    simpa [pow_one] using this
  rw [h1]
  cases j with
  | zero => simp [Nat.testBit_to_div_mod]
  | succ j =>
    have hone : (1 : Nat).testBit (j + 1) = false := by
      have : (1 : Nat) = 2 ^ 0 := rfl
      rw [this, Nat.testBit_two_pow]
      simp
    have hx : x.testBit (j + 1) = (x / 2).testBit j := by
      simp only [Nat.testBit_to_div_mod]
      rw [pow_succ, mul_comm (2 ^ j) 2, ← Nat.div_div_eq_div_mul]
    simp [hone, hx]

theorem or_one_le (x : Nat) : x ≤ x ||| 1 := by
  rw [or_one_eq]
  omega

theorem or_one_lt (x : Nat) (h : x < 2 ^ 64) : x ||| 1 < 2 ^ 64 := by
  rw [or_one_eq]
  have h64 : 2 ^ 64 % 2 = 0 := by norm_num
  omega

end PrefixVarint

namespace PrefixVarint

theorem pushLEBytes_length (x n : Nat) : (pushLEBytes x n).length = n := by
  induction n generalizing x with
  | zero => rfl
  | succ n ih => simp [pushLEBytes, ih]

theorem leVal_nil : leVal [] = 0 := rfl

theorem leVal_cons (b : Nat) (l : List Nat) : leVal (b :: l) = b + 256 * leVal l := rfl

theorem leVal_append (l1 l2 : List Nat) :
    leVal (l1 ++ l2) = leVal l1 + 256 ^ l1.length * leVal l2 := by
  induction l1 with
  | nil => simp [leVal_nil, leVal_cons]
  | cons b t ih =>
    simp only [List.cons_append, leVal_cons, ih, List.length_cons]
    ring

theorem leVal_pushLEBytes (x n : Nat) : leVal (pushLEBytes x n) = x % 256 ^ n := by
  induction n generalizing x with
  | zero => simp [pushLEBytes, leVal_nil, Nat.mod_one]
  | succ n ih =>
    simp only [pushLEBytes, leVal_cons, ih]
    rw [pow_succ, mul_comm (256 ^ n) 256, Nat.mod_mul]

theorem load_frame (x n : Nat) (rest : List Nat) (h : n ≤ 8) :
    unaligned_load_u64 (pushLEBytes x n ++ rest) =
      x % 256 ^ n + 256 ^ n * leVal (rest.take (8 - n)) := by
  unfold unaligned_load_u64
  rw [List.take_append_eq_append_take, pushLEBytes_length,
    List.take_of_length_le (by rw [pushLEBytes_length]; exact h),
    leVal_append, pushLEBytes_length, leVal_pushLEBytes]

theorem encode_long (x : Nat) (hB : 56 < bitlen (x ||| 1)) :
    encode x [] = 0 :: pushLEBytes x 8 := by
  simp only [encode, bits_eq_bitlen]
  rw [if_pos hB]
  simp

theorem encode_short (x c : Nat) (hx : x < 2 ^ 64) (hB : bitlen (x ||| 1) ≤ 56)
    (hc : c = 1 + (bitlen (x ||| 1) - 1) / 7) :
    encode x [] = pushLEBytes (x * 2 ^ c + 2 ^ (c - 1)) c := by
  have hB1 : 1 ≤ bitlen (x ||| 1) :=
    bitlen_pos (by rw [or_one_eq]; omega) (or_one_lt x hx)
  have hxB : x < 2 ^ bitlen (x ||| 1) :=
    lt_of_le_of_lt (or_one_le x) (lt_two_pow_bitlen (or_one_lt x hx))
  have hc8 : c ≤ 8 := by omega
  have hBc : bitlen (x ||| 1) + c ≤ 64 := by omega
  have hmul : x * 2 ^ c < 2 ^ 64 := by
    calc x * 2 ^ c < 2 ^ bitlen (x ||| 1) * 2 ^ c :=
          (Nat.mul_lt_mul_right (Nat.pos_pow_of_pos c (by norm_num))).mpr hxB
    _ = 2 ^ (bitlen (x ||| 1) + c) := (pow_add 2 _ _).symm
    _ ≤ 2 ^ 64 := Nat.pow_le_pow_right (by norm_num) hBc
  have hdvd : 2 ^ c ∣ x * 2 ^ c := dvd_mul_left (2 ^ c) x
  have hlt : 2 ^ (c - 1) < 2 ^ c :=
    (Nat.pow_lt_pow_iff_right (by norm_num : 1 < 2)).mpr (by omega)
  simp only [encode, bits_eq_bitlen]
  rw [if_neg (by omega), ← hc, Nat.mod_eq_of_lt hmul, lor_eq_add hdvd hlt]
  simp

theorem pow_256_eq (c : Nat) : (256 : Nat) ^ c = 2 ^ (8 * c) := by
  rw [pow_mul]
  norm_num

theorem decode_long_frame (x : Nat) (hx : x < 2 ^ 64) (rest : List Nat) :
    decode ((0 :: pushLEBytes x 8) ++ rest) = some x := by
  have hlen : length 0 = 9 := by decide
  simp only [List.cons_append, decode, hlen]
  rw [if_neg (by omega)]
  simp only [List.drop_succ_cons, List.drop_zero]
  rw [load_frame x 8 rest (by omega)]
  simp only [Nat.sub_self, List.take_zero, leVal_nil, Nat.mul_zero, Nat.add_zero]
  rw [pow_256_eq]
  norm_num
  omega

theorem decode_short_frame (x c : Nat) (rest : List Nat) (hc1 : 1 ≤ c) (hc8 : c ≤ 8)
    (hx : x < 2 ^ (7 * c)) :
    decode (pushLEBytes (x * 2 ^ c + 2 ^ (c - 1)) c ++ rest) = some x := by
  have hpos : 0 < 2 ^ c := Nat.pos_pow_of_pos c (by norm_num)
  have hc2 : 2 ^ (c - 1) * 2 = 2 ^ c := by
    rw [← pow_succ]
    congr 1
    omega
  have hc3 : 2 ^ c * 2 ^ (8 - c) = 2 ^ 8 := by
    rw [← pow_add]
    congr 1
    omega
  have hc4 : 2 ^ (8 * c) = 2 ^ (7 * c) * 2 ^ c := by
    rw [← pow_add]
    congr 1
    omega
  have hlt : 2 ^ (c - 1) < 2 ^ c :=
    (Nat.pow_lt_pow_iff_right (by norm_num : 1 < 2)).mpr (by omega)
  set y := x * 2 ^ c + 2 ^ (c - 1) with hy
  have hxc : x * 2 ^ c + 2 ^ c ≤ 2 ^ (7 * c) * 2 ^ c := by
    have h := Nat.mul_le_mul_right (2 ^ c) (Nat.succ_le_of_lt hx)
    calc x * 2 ^ c + 2 ^ c = (x + 1) * 2 ^ c := by ring
    _ ≤ 2 ^ (7 * c) * 2 ^ c := h
  have hybound : y < 2 ^ (8 * c) := by omega
  -- the first byte of the frame
  have h256 : (256 : Nat) = 2 ^ 8 := by norm_num
  have ht : x * 2 ^ c % 256 = 2 ^ c * (x % 2 ^ (8 - c)) := by
    rw [h256, mul_comm x (2 ^ c), ← hc3, Nat.mul_mod_mul_left]
  have htlt : x % 2 ^ (8 - c) < 2 ^ (8 - c) :=
    Nat.mod_lt x (Nat.pos_pow_of_pos _ (by norm_num))
  have hcle : 2 ^ c ≤ 2 ^ 8 := Nat.pow_le_pow_right (by norm_num) hc8
  have hsum : 2 ^ c * (x % 2 ^ (8 - c)) + 2 ^ (c - 1) < 2 ^ 8 := by
    have h1 : 2 ^ c * (x % 2 ^ (8 - c)) + 2 ^ c ≤ 2 ^ c * 2 ^ (8 - c) := by
      have h2 := Nat.mul_le_mul_left (2 ^ c) (Nat.succ_le_of_lt htlt)
      calc 2 ^ c * (x % 2 ^ (8 - c)) + 2 ^ c = 2 ^ c * (x % 2 ^ (8 - c) + 1) := by ring
      _ ≤ 2 ^ c * 2 ^ (8 - c) := h2
    omega
  have hfb : y % 256 = 2 ^ c * (x % 2 ^ (8 - c)) + 2 ^ (c - 1) := by
    rw [hy, Nat.add_mod, ht,
      show 2 ^ (c - 1) % 256 = 2 ^ (c - 1) by
        rw [h256]
        exact Nat.mod_eq_of_lt (lt_of_lt_of_le hlt hcle),
      h256, Nat.mod_eq_of_lt hsum]
  have hfb256 : y % 256 < 2 ^ 8 := by
    rw [hfb]
    exact hsum
  have hfactor : y % 256 ||| 0x100 =
      2 ^ (c - 1) * (2 * (x % 2 ^ (8 - c) + 2 ^ (8 - c)) + 1) := by
    have hor : y % 256 ||| 0x100 = y % 256 + 2 ^ 8 := by
      rw [Nat.lor_comm, show (0x100 : Nat) = 2 ^ 8 by norm_num,
        lor_eq_add (dvd_refl (2 ^ 8))
          (show y % 2 ^ 8 < 2 ^ 8 from Nat.mod_lt y (by norm_num))]
      omega
    have h1 : 2 ^ (c - 1) * (2 * (x % 2 ^ (8 - c) + 2 ^ (8 - c)) + 1) =
        (2 ^ (c - 1) * 2) * (x % 2 ^ (8 - c)) + (2 ^ (c - 1) * 2) * 2 ^ (8 - c) +
          2 ^ (c - 1) := by ring
    rw [hor, hfb, h1, hc2, hc3]
    ring
  have hlen : length (y % 256) = c := by
    unfold length trailingZeros32
    rw [hfactor, ctzAux_pow_mul 32 (c - 1) _ (by omega)]
    omega
  obtain ⟨c0, rfl⟩ : ∃ c0, c = c0 + 1 := ⟨c - 1, by omega⟩
  have hlist : pushLEBytes y (c0 + 1) ++ rest =
      y % 256 :: (pushLEBytes (y / 256) c0 ++ rest) := by
    simp [pushLEBytes]
  have hload : unaligned_load_u64 (y % 256 :: (pushLEBytes (y / 256) c0 ++ rest)) =
      y + 2 ^ (8 * (c0 + 1)) * leVal (rest.take (8 - (c0 + 1))) := by
    rw [← hlist, load_frame y (c0 + 1) rest hc8, pow_256_eq, Nat.mod_eq_of_lt hybound]
  rw [hlist]
  simp only [decode]
  rw [hlen, if_pos (by omega), hload]
  congr 1
  set S := leVal (rest.take (8 - (c0 + 1))) with hS
  have hu : 8 * (c0 + 1) + (64 - 8 * (c0 + 1)) = 64 := by omega
  have hp64 : 2 ^ (8 * (c0 + 1)) * 2 ^ (64 - 8 * (c0 + 1)) = 2 ^ 64 := by
    rw [← pow_add, hu]
  have hkill : (y + 2 ^ (8 * (c0 + 1)) * S) * 2 ^ (64 - 8 * (c0 + 1)) =
      y * 2 ^ (64 - 8 * (c0 + 1)) + S * 2 ^ 64 := by
    rw [add_mul, ← hp64]
    ring
  have hylt : y * 2 ^ (64 - 8 * (c0 + 1)) < 2 ^ 64 := by
    calc y * 2 ^ (64 - 8 * (c0 + 1)) <
        2 ^ (8 * (c0 + 1)) * 2 ^ (64 - 8 * (c0 + 1)) :=
          (Nat.mul_lt_mul_right (Nat.pos_pow_of_pos _ (by norm_num))).mpr hybound
    _ = 2 ^ 64 := hp64
  rw [hkill, Nat.add_mul_mod_self_right, Nat.mod_eq_of_lt hylt]
  have hdivsplit : 2 ^ (64 - 8 * (c0 + 1) + (c0 + 1)) =
      2 ^ (64 - 8 * (c0 + 1)) * 2 ^ (c0 + 1) := pow_add 2 _ _
  rw [hdivsplit, mul_comm y (2 ^ (64 - 8 * (c0 + 1))),
    Nat.mul_div_mul_left y (2 ^ (c0 + 1)) (Nat.pos_pow_of_pos _ (by norm_num))]
  rw [hy, mul_comm x (2 ^ (c0 + 1)), Nat.mul_add_div hpos, Nat.div_eq_of_lt hlt]
  omega

end PrefixVarint

namespace PrefixVarint

theorem short_c_facts (x : Nat) (hx : x < 2 ^ 64) (hB : bitlen (x ||| 1) ≤ 56) :
    1 ≤ 1 + (bitlen (x ||| 1) - 1) / 7 ∧ 1 + (bitlen (x ||| 1) - 1) / 7 ≤ 8 ∧
      x < 2 ^ (7 * (1 + (bitlen (x ||| 1) - 1) / 7)) := by
  have hB1 : 1 ≤ bitlen (x ||| 1) :=
    bitlen_pos (by rw [or_one_eq]; omega) (or_one_lt x hx)
  have hxB : x < 2 ^ bitlen (x ||| 1) :=
    lt_of_le_of_lt (or_one_le x) (lt_two_pow_bitlen (or_one_lt x hx))
  refine ⟨by omega, by omega, ?_⟩
  exact lt_of_lt_of_le hxB (Nat.pow_le_pow_right (by norm_num) (by omega))

theorem decode_encode_append (x : Nat) (hx : x < 2 ^ 64) (rest : List Nat) :
    decode (encode x [] ++ rest) = some x := by
  by_cases hB : bitlen (x ||| 1) ≤ 56
  · obtain ⟨h1, h2, h3⟩ := short_c_facts x hx hB
    rw [encode_short x _ hx hB rfl]
    exact decode_short_frame x _ rest h1 h2 h3
  · rw [encode_long x (by omega)]
    exact decode_long_frame x hx rest

theorem spec_bits_eq (x : Nat) (hx : x < 2 ^ 64) :
    max 1 (Nat.clog 2 (x + 1)) = bitlen (x ||| 1) := by
  rcases Nat.eq_zero_or_pos x with rfl | hx1
  · rw [Nat.clog_one_right]
    decide
  · have hk1 : 1 ≤ Nat.clog 2 (x + 1) := Nat.clog_pos (by norm_num) (by omega)
    have hk64 : Nat.clog 2 (x + 1) ≤ 64 := by
      have h := Nat.clog_mono_right 2 (show x + 1 ≤ 2 ^ 64 by omega)
      rwa [Nat.clog_pow 2 64 (by norm_num)] at h
    have hup : x + 1 ≤ 2 ^ Nat.clog 2 (x + 1) := Nat.le_pow_clog (by norm_num) _
    have hlow : 2 ^ (Nat.clog 2 (x + 1) - 1) < x + 1 := by
      have h := Nat.pow_pred_clog_lt_self (by norm_num : 1 < 2)
        (show 1 < x + 1 by omega)
      simpa [Nat.pred_eq_sub_one] using h
    have hmax : max 1 (Nat.clog 2 (x + 1)) = Nat.clog 2 (x + 1) := by omega
    rw [hmax]
    have hor := or_one_eq x
    have heven : 2 ^ Nat.clog 2 (x + 1) = 2 * 2 ^ (Nat.clog 2 (x + 1) - 1) := by
      conv_lhs => rw [show Nat.clog 2 (x + 1) = Nat.clog 2 (x + 1) - 1 + 1 by omega]
      ring
    have hle := or_one_le x
    refine (bitlen_eq hk1 hk64 ?_ ?_).symm
    · omega
    · omega

end PrefixVarint

section CodecClaims

open PrefixVarint

/-- Claim C1: for every 64-bit unsigned integer x in [0, 2^64), decoding the
byte sequence produced by encoding x into an initially empty buffer yields x
again. -/
theorem claim_C1_decode_encode (x : Nat) (hx : x < 2 ^ 64) :
    decode (encode x []) = some x := by
  have h := decode_encode_append x hx []
  simpa using h

theorem claim_C1_witness :
    (300 : Nat) < 2 ^ 64 ∧ decode (encode 300 []) = some 300 :=
  ⟨by norm_num, claim_C1_decode_encode 300 (by norm_num)⟩

/-- Claim C3: for every x in [0, 2^64), the number of bytes encode appends
equals the length-rule formula of the spec (specLen). -/
theorem claim_C3_encode_length (x : Nat) (hx : x < 2 ^ 64) :
    (encode x []).length = specLen x := by
  have hB1 : 1 ≤ bitlen (x ||| 1) :=
    bitlen_pos (by rw [or_one_eq]; omega) (or_one_lt x hx)
  simp only [specLen]
  rw [spec_bits_eq x hx]
  by_cases hB : bitlen (x ||| 1) ≤ 56
  · rw [if_pos hB, encode_short x _ hx hB rfl, pushLEBytes_length]
    omega
  · rw [if_neg hB, encode_long x (by omega)]
    simp [pushLEBytes_length]

theorem claim_C3_witness :
    (16384 : Nat) < 2 ^ 64 ∧ (encode 16384 []).length = specLen 16384 :=
  ⟨by norm_num, claim_C3_encode_length 16384 (by norm_num)⟩

/-- Claim C4: decoding reads exactly the frame indicated by the first byte and
ignores all trailing bytes: for every x in [0, 2^64) and every suffix,
decoding the encoded frame followed by the suffix still yields x. -/
theorem claim_C4_decode_ignores_suffix (x : Nat) (hx : x < 2 ^ 64)
    (suffix : List Nat) : decode (encode x [] ++ suffix) = some x :=
  decode_encode_append x hx suffix

theorem claim_C4_witness :
    (300 : Nat) < 2 ^ 64 ∧ decode (encode 300 [] ++ [7, 0, 255]) = some 300 :=
  ⟨by norm_num, claim_C4_decode_ignores_suffix 300 (by norm_num) [7, 0, 255]⟩

/-- Claim C9: decode is total on every non-empty input (missing frame bytes
load as zero inside unaligned_load_u64) and panics exactly on the empty
input, which is modelled by none. -/
theorem claim_C9_decode_total (p : List Nat) : (decode p).isSome ↔ p ≠ [] := by
  cases p with
  | nil => simp [decode]
  | cons b t => simp [decode, apply_ite Option.isSome]

theorem claim_C9_witness : (decode [4]).isSome :=
  (claim_C9_decode_total [4]).mpr (by decide)

end CodecClaims

namespace Vfs

theorem vecResize_length (l : List Nat) (n fill : Nat) :
    (vecResize l n fill).length = n := by
  unfold vecResize
  split
  · simp [List.length_take]
    omega
  · simp [List.length_append, List.length_replicate]
    omega

theorem vecResize_getElem (l : List Nat) (n fill i : Nat) :
    (vecResize l n fill)[i]? =
      if i < n then (if i < l.length then l[i]? else some fill) else none := by
  unfold vecResize
  split
  · rename_i h
    rw [List.getElem?_take]
    by_cases h1 : i < n
    · rw [if_pos h1, if_pos h1, if_pos (by omega)]
    · rw [if_neg h1, if_neg h1]
  · rename_i h
    rw [List.getElem?_append]
    by_cases h1 : i < l.length
    · rw [if_pos h1, if_pos (by omega), if_pos h1]
    · rw [if_neg h1, List.getElem?_replicate]
      by_cases h2 : i < n
      · rw [if_pos (by omega), if_pos h2, if_neg h1]
      · rw [if_neg (by omega), if_neg h2]

theorem splice_getElem (d buf : List Nat) (offset i : Nat)
    (hoff : offset ≤ d.length) :
    (d.take offset ++ buf ++ d.drop (offset + buf.length))[i]? =
      if i < offset then d[i]?
      else if i < offset + buf.length then buf[i - offset]?
      else d[i]? := by
  have hlen : (d.take offset).length = offset := by
    simp [List.length_take]
    omega
  rw [List.append_assoc, List.getElem?_append, hlen]
  by_cases h1 : i < offset
  · rw [if_pos h1, if_pos h1, List.getElem?_take, if_pos h1]
  · rw [if_neg h1, if_neg h1]
    rw [List.getElem?_append]
    by_cases h2 : i < offset + buf.length
    · rw [if_pos (by omega), if_pos h2]
    · rw [if_neg (by omega), if_neg h2, List.getElem?_drop]
      congr 1
      omega

theorem write_length (f : MemoryFileData) (offset : Nat) (buf : List Nat) :
    (f.write offset buf).data.length = max f.data.length (offset + buf.length) := by
  simp only [MemoryFileData.write]
  split
  · rename_i h
    simp [List.length_take, List.length_drop, vecResize_length]
    omega
  · rename_i h
    simp [List.length_take, List.length_drop]
    omega

theorem write_getElem (f : MemoryFileData) (offset : Nat) (buf : List Nat)
    (i : Nat) :
    (f.write offset buf).data[i]? =
      if i < offset then (if i < f.data.length then f.data[i]? else some 0xCC)
      else if i < offset + buf.length then buf[i - offset]?
      else if i < f.data.length then f.data[i]? else none := by
  simp only [MemoryFileData.write]
  split
  · rename_i h
    rw [splice_getElem _ _ _ _ (by rw [vecResize_length]; omega)]
    by_cases h1 : i < offset
    · rw [if_pos h1, if_pos h1, vecResize_getElem, if_pos (by omega)]
    · rw [if_neg h1, if_neg h1]
      by_cases h2 : i < offset + buf.length
      · rw [if_pos h2, if_pos h2]
      · rw [if_neg h2, if_neg h2, vecResize_getElem, if_neg (by omega),
          if_neg (by omega)]
  · rename_i h
    rw [splice_getElem _ _ _ _ (by omega)]
    by_cases h1 : i < offset
    · rw [if_pos h1, if_pos h1, if_pos (by omega)]
    · rw [if_neg h1, if_neg h1]
      by_cases h2 : i < offset + buf.length
      · rw [if_pos h2, if_pos h2]
      · rw [if_neg h2, if_neg h2]
        by_cases h3 : i < f.data.length
        · rw [if_pos h3]
        · rw [if_neg h3, List.getElem?_eq_none (by omega)]

end Vfs

section VfsClaims

open Vfs

/-- Claim C5: MemoryFile::write succeeds for every offset and buffer, stores
buf at [offset, offset + buf.len), extends the file when the range reaches
past the end, fills the gap between the old end and offset with 0xCC, and in
particular writing hello at 0 then world at 4 on an empty file yields a file
of size 9 with contents hellworld. -/
theorem claim_C5_write (f : Vfs.MemoryFileData) (offset : Nat) (buf : List Nat) :
    ((f.write offset buf).data.length = max f.data.length (offset + buf.length))
    ∧ (∀ i, i < buf.length → (f.write offset buf).data[offset + i]? = buf[i]?)
    ∧ (∀ i, i < offset → i < f.data.length →
        (f.write offset buf).data[i]? = f.data[i]?)
    ∧ (∀ i, f.data.length ≤ i → i < offset →
        (f.write offset buf).data[i]? = some 0xCC)
    ∧ (∀ i, offset + buf.length ≤ i → i < f.data.length →
        (f.write offset buf).data[i]? = f.data[i]?)
    ∧ ((Vfs.MemoryFileData.default.write 0 helloBytes).write 4 worldBytes =
        { data := hellworldBytes, locked := false }) := by
  refine ⟨write_length f offset buf, ?_, ?_, ?_, ?_, by decide⟩
  · intro i hi
    rw [write_getElem, if_neg (by omega), if_pos (by omega)]
    congr 1
    omega
  · intro i hi hlen
    rw [write_getElem, if_pos hi, if_pos hlen]
  · intro i hlen hi
    rw [write_getElem, if_pos hi, if_neg (by omega)]
  · intro i hi hlen
    rw [write_getElem, if_neg (by omega), if_neg (by omega), if_pos hlen]

theorem claim_C5_witness :
    (Vfs.MemoryFileData.default.write 0 helloBytes).write 4 worldBytes =
      { data := hellworldBytes, locked := false } :=
  (claim_C5_write Vfs.MemoryFileData.default 0 helloBytes).2.2.2.2.2

/-- Claim C6: MemoryFile::read fails exactly when offset + buf.len exceeds
the current size; on success the buffer receives the file bytes at
[offset, offset + len). The embedded read does not touch the file state,
matching the shared-borrow in the source. -/
theorem claim_C6_read (f : Vfs.MemoryFileData) (offset len : Nat) :
    ((f.read offset len).isSome ↔ offset + len ≤ f.data.length)
    ∧ (∀ bs, f.read offset len = some bs →
        bs.length = len ∧ ∀ i, i < len → bs[i]? = f.data[offset + i]?) := by
  constructor
  · unfold MemoryFileData.read
    split
    · simp
      omega
    · simp
      omega
  · intro bs hbs
    unfold MemoryFileData.read at hbs
    split at hbs
    · exact absurd hbs (by simp)
    · rename_i hrange
      obtain rfl : (f.data.drop offset).take len = bs := Option.some.inj hbs
      constructor
      · simp [List.length_take, List.length_drop]
        omega
      · intro i hi
        rw [List.getElem?_take, if_pos hi, List.getElem?_drop]

theorem claim_C6_witness :
    ((Vfs.MemoryFileData.mk [1, 2, 3] false).read 1 2).isSome :=
  ((claim_C6_read (Vfs.MemoryFileData.mk [1, 2, 3] false) 1 2).1).mpr (by decide)

/-- Claim C7: MemoryFile::truncate sets the size to exactly n; shrinking
keeps the first n bytes, growing preserves the original prefix and exposes
0xCC fill bytes. -/
theorem claim_C7_truncate (f : Vfs.MemoryFileData) (n : Nat) :
    ((f.truncate n).data.length = n)
    ∧ (∀ i, i < n → i < f.data.length → (f.truncate n).data[i]? = f.data[i]?)
    ∧ (∀ i, f.data.length ≤ i → i < n → (f.truncate n).data[i]? = some 0xCC) := by
  refine ⟨vecResize_length f.data n 0xCC, ?_, ?_⟩
  · intro i h1 h2
    unfold MemoryFileData.truncate
    rw [vecResize_getElem, if_pos h1, if_pos h2]
  · intro i h1 h2
    unfold MemoryFileData.truncate
    rw [vecResize_getElem, if_pos h2, if_neg (by omega)]

theorem claim_C7_witness :
    ((Vfs.MemoryFileData.mk [1, 2, 3] false).truncate 5).data.length = 5 :=
  (claim_C7_truncate (Vfs.MemoryFileData.mk [1, 2, 3] false) 5).1

end VfsClaims

namespace Vfs

theorem hLock_eq (fs fs2 : MemoryFileSystem) (h : String)
    (hlk : hLock fs h = some fs2) :
    ∃ d, fs h = some d ∧ d.locked = false ∧
      fs2 = fun p => if p = h then some { d with locked := true } else fs p := by
  unfold hLock hApply MemoryFileData.lock at hlk
  cases hfs : fs h with
  | none =>
    rw [hfs] at hlk
    simp at hlk
  | some d =>
    rw [hfs] at hlk
    simp only [Option.some_bind] at hlk
    by_cases hl : d.locked
    · rw [if_pos hl] at hlk
      simp at hlk
    · rw [if_neg hl] at hlk
      simp only [Option.map_some', Option.some.injEq] at hlk
      exact ⟨d, rfl, by simpa using hl, hlk.symm⟩

theorem hUnlock_eq (fs fs2 : MemoryFileSystem) (h : String)
    (hlk : hUnlock fs h = some fs2) :
    ∃ d, fs h = some d ∧ d.locked = true ∧
      fs2 = fun p => if p = h then some { d with locked := false } else fs p := by
  unfold hUnlock hApply MemoryFileData.unlock at hlk
  cases hfs : fs h with
  | none =>
    rw [hfs] at hlk
    simp at hlk
  | some d =>
    rw [hfs] at hlk
    simp only [Option.some_bind] at hlk
    by_cases hl : d.locked
    · rw [if_pos hl] at hlk
      simp only [Option.map_some', Option.some.injEq] at hlk
      exact ⟨d, rfl, hl, hlk.symm⟩
    · rw [if_neg hl] at hlk
      simp at hlk

end Vfs

section LockClaims

open Vfs

/-- Claim C8: for two in-memory handles opened on the same path, after lock
succeeds through one handle, try_lock and lock through the other handle
fail; after the holder unlocks, lock through the other handle succeeds; and
unlock fails whenever the file is not currently locked. -/
theorem claim_C8_lock_exclusion (fs0 : Vfs.MemoryFileSystem) (path : String)
    (fsA fsB : Vfs.MemoryFileSystem) (g1 g2 : String)
    (hopen1 : Vfs.msOpen fs0 path = (fsA, g1))
    (hopen2 : Vfs.msOpen fsA path = (fsB, g2)) :
    (∀ fs fs2, Vfs.hLock fs g1 = some fs2 →
      Vfs.hTryLock fs2 g2 = none ∧ Vfs.hLock fs2 g2 = none)
    ∧ (∀ fs fs2 fs3, Vfs.hLock fs g1 = some fs2 →
        Vfs.hUnlock fs2 g1 = some fs3 → (Vfs.hLock fs3 g2).isSome)
    ∧ (∀ fs d, fs g2 = some d → d.locked = false → Vfs.hUnlock fs g2 = none) := by
  have hg1 : g1 = path := (congrArg Prod.snd hopen1).symm
  have hg2 : g2 = path := (congrArg Prod.snd hopen2).symm
  rw [hg1, hg2]
  refine ⟨?_, ?_, ?_⟩
  · intro fs fs2 hlk
    obtain ⟨d, hfs, hdl, rfl⟩ := hLock_eq fs fs2 path hlk
    constructor
    · simp [Vfs.hTryLock, Vfs.hApply, Vfs.MemoryFileData.try_lock]
    · simp [Vfs.hLock, Vfs.hApply, Vfs.MemoryFileData.lock]
  · intro fs fs2 fs3 hlk hunlk
    obtain ⟨d, hfs, hdl, rfl⟩ := hLock_eq fs fs2 path hlk
    obtain ⟨e, hfs2, hel, rfl⟩ := hUnlock_eq _ fs3 path hunlk
    simp [Vfs.hLock, Vfs.hApply, Vfs.MemoryFileData.lock]
  · intro fs d hfs hdl
    unfold Vfs.hUnlock Vfs.hApply Vfs.MemoryFileData.unlock
    rw [hfs]
    simp [hdl]

theorem claim_C8_witness :
    Vfs.hTryLock fsAfterLock pathF = none ∧ Vfs.hLock fsAfterLock pathF = none := by
  have h := claim_C8_lock_exclusion exampleFS0 pathF exampleFS1 exampleFS2 pathF pathF
    rfl rfl
  exact h.1 exampleFS2 fsAfterLock rfl

/-- Claim C10: the lock state is a single flag in the per-path cell shared by
every handle opened on that path: two opens of the same path return the same
aliased handle, and a handle that never locked can successfully unlock a
lock acquired through the other handle. -/
theorem claim_C10_lock_shared (fs0 : Vfs.MemoryFileSystem) (path : String)
    (fsA fsB : Vfs.MemoryFileSystem) (g1 g2 : String)
    (hopen1 : Vfs.msOpen fs0 path = (fsA, g1))
    (hopen2 : Vfs.msOpen fsA path = (fsB, g2)) :
    g1 = g2 ∧
      ∀ fs fs2, Vfs.hLock fs g1 = some fs2 → (Vfs.hUnlock fs2 g2).isSome := by
  have hg1 : g1 = path := (congrArg Prod.snd hopen1).symm
  have hg2 : g2 = path := (congrArg Prod.snd hopen2).symm
  rw [hg1, hg2]
  refine ⟨rfl, ?_⟩
  intro fs fs2 hlk
  obtain ⟨d, hfs, hdl, rfl⟩ := hLock_eq fs fs2 path hlk
  simp [Vfs.hUnlock, Vfs.hApply, Vfs.MemoryFileData.unlock]

theorem claim_C10_witness : (Vfs.hUnlock fsAfterLock pathF).isSome := by
  have h := claim_C10_lock_shared exampleFS0 pathF exampleFS1 exampleFS2 pathF pathF
    rfl rfl
  exact h.2 exampleFS2 fsAfterLock rfl

end LockClaims

namespace Prolly

theorem keyLt_irrefl (k : Key) : keyLt k k = false := by
  induction k with
  | nil => rfl
  | cons a as ih => simp [keyLt, ih]

theorem keyLt_asymm (k1 k2 : Key) (h : keyLt k1 k2 = true) :
    keyLt k2 k1 = false := by
  induction k1 generalizing k2 with
  | nil =>
    cases k2 with
    | nil => simp [keyLt] at h
    | cons b bs => rfl
  | cons a as ih =>
    cases k2 with
    | nil => simp [keyLt] at h
    | cons b bs =>
      simp only [keyLt] at h ⊢
      by_cases hab : a < b
      · rw [if_neg (by omega), if_neg (by omega)]
      · by_cases heq : a = b
        · subst heq
          rw [if_neg hab, if_pos rfl] at h
          rw [if_neg hab, if_pos rfl]
          exact ih bs h
        · rw [if_neg hab, if_neg heq] at h
          simp at h

theorem keyLt_total (k1 k2 : Key) (h1 : keyLt k1 k2 = false)
    (h2 : keyLt k2 k1 = false) : k1 = k2 := by
  induction k1 generalizing k2 with
  | nil =>
    cases k2 with
    | nil => rfl
    | cons b bs => simp [keyLt] at h1
  | cons a as ih =>
    cases k2 with
    | nil => simp [keyLt] at h2
    | cons b bs =>
      simp only [keyLt] at h1 h2
      by_cases hab : a < b
      · rw [if_pos hab] at h1
        simp at h1
      · by_cases hba : b < a
        · rw [if_pos hba] at h2
          simp at h2
        · have heq : a = b := by omega
          subst heq
          rw [if_neg hab, if_pos rfl] at h1
          rw [if_neg hab, if_pos rfl] at h2
          rw [ih bs h1 h2]

theorem keyLt_trans (k1 k2 k3 : Key) (h1 : keyLt k1 k2 = true)
    (h2 : keyLt k2 k3 = true) : keyLt k1 k3 = true := by
  induction k1 generalizing k2 k3 with
  | nil =>
    cases k2 with
    | nil => simp [keyLt] at h1
    | cons b bs =>
      cases k3 with
      | nil => simp [keyLt] at h2
      | cons c cs => rfl
  | cons a as ih =>
    cases k2 with
    | nil => simp [keyLt] at h1
    | cons b bs =>
      cases k3 with
      | nil => simp [keyLt] at h2
      | cons c cs =>
        simp only [keyLt] at h1 h2 ⊢
        by_cases hab : a < b
        · by_cases hbc : b < c
          · rw [if_pos (by omega)]
          · by_cases hbc2 : b = c
            · rw [if_pos (by omega)]
            · rw [if_neg hbc, if_neg hbc2] at h2
              simp at h2
        · by_cases hab2 : a = b
          · by_cases hbc : b < c
            · rw [if_pos (by omega)]
            · by_cases hbc2 : b = c
              · rw [if_neg (by omega), if_pos (by omega)]
                rw [if_neg hab, if_pos hab2] at h1
                rw [if_neg hbc, if_pos hbc2] at h2
                exact ih bs cs h1 h2
              · rw [if_neg hbc, if_neg hbc2] at h2
                simp at h2
          · rw [if_neg hab, if_neg hab2] at h1
            simp at h1

theorem keyLt_of_not (k1 k2 : Key) (h1 : keyLt k1 k2 = false) (h2 : k1 ≠ k2) :
    keyLt k2 k1 = true := by
  cases hkk : keyLt k2 k1 with
  | true => rfl
  | false => exact absurd (keyLt_total k1 k2 h1 hkk) h2

theorem insertKV_mem (l : List (Key × List Nat)) (k : Key) (v : List Nat)
    (p : Key × List Nat) (hp : p ∈ insertKV l k v) : p ∈ l ∨ p = (k, v) := by
  induction l with
  | nil =>
    simp only [insertKV, List.mem_singleton] at hp
    exact Or.inr hp
  | cons e rest ih =>
    obtain ⟨k2, v2⟩ := e
    simp only [insertKV] at hp
    by_cases h1 : keyLt k k2 = true
    · rw [if_pos h1] at hp
      simp only [List.mem_cons] at hp ⊢
      tauto
    · by_cases h2 : k = k2
      · rw [if_neg h1, if_pos h2] at hp
        simp only [List.mem_cons] at hp ⊢
        tauto
      · rw [if_neg h1, if_neg h2] at hp
        simp only [List.mem_cons] at hp ⊢
        rcases hp with rfl | hp2
        · tauto
        · rcases ih hp2 with h3 | h3 <;> tauto

theorem insertKV_sorted (l : List (Key × List Nat)) (k : Key) (v : List Nat)
    (hs : SortedKeys l) : SortedKeys (insertKV l k v) := by
  induction l with
  | nil => simp [insertKV]
  | cons e rest ih =>
    obtain ⟨k2, v2⟩ := e
    obtain ⟨hhead, htail⟩ := List.pairwise_cons.mp hs
    simp only [insertKV]
    by_cases h1 : keyLt k k2 = true
    · rw [if_pos h1]
      refine List.pairwise_cons.mpr ⟨?_, List.pairwise_cons.mpr ⟨hhead, htail⟩⟩
      intro e he
      rcases List.mem_cons.mp he with rfl | he2
      · exact h1
      · exact keyLt_trans k k2 e.1 h1 (hhead e he2)
    · by_cases h2 : k = k2
      · rw [if_neg h1, if_pos h2]
        refine List.pairwise_cons.mpr ⟨?_, htail⟩
        intro e he
        subst h2
        exact hhead e he
      · rw [if_neg h1, if_neg h2]
        refine List.pairwise_cons.mpr ⟨?_, ih htail⟩
        intro e he
        rcases insertKV_mem rest k v e he with he2 | rfl
        · exact hhead e he2
        · exact keyLt_of_not k k2 (by simpa using h1) h2

theorem foldl_insertKV_sorted (ops : List (Key × List Nat))
    (init : List (Key × List Nat)) (hs : SortedKeys init) :
    SortedKeys (ops.foldl (fun l op => insertKV l op.1 op.2) init) := by
  induction ops generalizing init with
  | nil => simpa using hs
  | cons op rest ih => exact ih _ (insertKV_sorted init op.1 op.2 hs)

theorem applyInserts_sorted (ops : List (Key × List Nat)) :
    SortedKeys (applyInserts ops) :=
  foldl_insertKV_sorted ops [] List.Pairwise.nil

theorem sorted_eq_of_mem_iff (l1 l2 : List (Key × List Nat))
    (h1 : SortedKeys l1) (h2 : SortedKeys l2)
    (hm : ∀ p, p ∈ l1 ↔ p ∈ l2) : l1 = l2 := by
  haveI inst : IsAntisymm (Key × List Nat)
      (fun e1 e2 => keyLt e1.1 e2.1 = true) := by
    constructor
    intro a b hab hba
    have hf := keyLt_asymm a.1 b.1 hab
    rw [hf] at hba
    simp at hba
  have nd1 : l1.Nodup := by
    refine List.Pairwise.imp ?_ h1
    intro a b hab hEq
    subst hEq
    rw [keyLt_irrefl] at hab
    simp at hab
  have nd2 : l2.Nodup := by
    refine List.Pairwise.imp ?_ h2
    intro a b hab hEq
    subst hEq
    rw [keyLt_irrefl] at hab
    simp at hab
  have hperm := (List.perm_ext_iff_of_nodup nd1 nd2).mpr hm
  exact List.eq_of_perm_of_sorted hperm h1 h2

end Prolly

section ProllyClaims

/-- Claim C2: for a fixed Policy, any two insert sequences on the initially
empty Prolly tree that produce the same final key-value set yield the same
root content hash (unicity). Modelled from the spec, since BasicTree is a
stub in the source: the tree structure is the layer-by-layer grouping of the
sorted entry list dictated by boundary_decision, so the root hash factors
through the sorted entry list, and two strictly-sorted lists with the same
members are equal. -/
theorem claim_C2_unicity (pol : Prolly.Policy)
    (ops1 ops2 : List (Prolly.Key × List Nat))
    (hset : ∀ p, p ∈ Prolly.applyInserts ops1 ↔ p ∈ Prolly.applyInserts ops2) :
    Prolly.rootHash pol (Prolly.applyInserts ops1) =
      Prolly.rootHash pol (Prolly.applyInserts ops2) := by
  have he : Prolly.applyInserts ops1 = Prolly.applyInserts ops2 :=
    Prolly.sorted_eq_of_mem_iff _ _ (Prolly.applyInserts_sorted ops1)
      (Prolly.applyInserts_sorted ops2) hset
  rw [he]

theorem claim_C2_witness :
    Prolly.rootHash Prolly.examplePolicy (Prolly.applyInserts Prolly.exampleOps1) =
      Prolly.rootHash Prolly.examplePolicy (Prolly.applyInserts Prolly.exampleOps2) :=
  claim_C2_unicity Prolly.examplePolicy Prolly.exampleOps1 Prolly.exampleOps2
    (fun p => by
      rw [show Prolly.applyInserts Prolly.exampleOps1 =
        Prolly.applyInserts Prolly.exampleOps2 from rfl])

end ProllyClaims
